import Mathlib

/-!
Verification of `src/src/black/files.py`: project-root discovery,
pyproject.toml config normalization, and target-version inference from
`requires-python` metadata.

Filesystem paths are modelled as lists of components of an absolute,
already-resolved path (`_cached_resolve` is I/O and is modelled by taking
all input paths as resolved absolute paths; the filesystem root `/` is the
empty list).  Filesystem state is an abstract record of the predicates the
code queries (`exists`, `is_dir`, `is_file`, and whether a given
pyproject.toml document contains a `[tool.black]` section).
-/

set_option autoImplicit false

/-- An absolute resolved filesystem path as its list of components; `[]` is
the filesystem root `/`. -/
abbrev FsPath := List String

/-- Abstract filesystem state: the predicates `find_project_root` queries.
`tomlHasToolBlack p` abstracts `"black" in _load_toml(p).get("tool", {})`
for the file at path `p`. -/
structure FS where
  pathExists : FsPath → Bool
  isDir : FsPath → Bool
  isFile : FsPath → Bool
  tomlHasToolBlack : FsPath → Bool

/-- Python `Path.parents`: the proper ancestors of a path, nearest first,
ending with the filesystem root (e.g. `/a/b` gives `[/a, /]`; `/` gives `[]`). -/
def parents (p : FsPath) : List FsPath :=
  ((List.range p.length).map (fun k => p.take k)).reverse

/-- Embedding of `list(path.parents) + ([path] if path.is_dir() else [])`
from `find_project_root` (files.py line 58). -/
def srcParents (fs : FS) (p : FsPath) : List FsPath :=
  parents p ++ (if fs.isDir p then [p] else [])

/-- Embedding of the `common_base` computation (files.py lines 62-65):
`max(set.intersection(*(set(parents) for parents in src_parents)), key=parts)`.
All members of the intersection are prefixes of the first source's component
chain, hence totally ordered by the tuple-lexicographic key; the maximum is
therefore the first common member of the first source's candidate list taken
in depth-descending order.  (Python's `max` on an empty set raises; the
intersection is empty only when a source is the filesystem root and the root
is not a directory, where we default to the root.) -/
def commonBase (fs : FS) (paths : List FsPath) : FsPath :=
  match paths with
  | [] => []
  | p :: rest =>
    let cands := (if fs.isDir p then [p] else []) ++ parents p
    (cands.find? (fun d =>
      (p :: rest).all (fun q => (srcParents fs q).contains d))).getD []

/-- Embedding of the upward loop of `find_project_root` (files.py lines
67-79): visit each directory nearest-first, return on the first root
marker; `last` tracks Python's loop variable so that the fall-through
`return directory, "file system root"` returns the last visited directory. -/
def rootWalk (fs : FS) : List FsPath → FsPath → FsPath × String
  | [], last => (last, "file system root")
  | d :: rest, _ =>
    if fs.pathExists (d ++ [".git"]) then
      (d, ".git directory")
    else if fs.isDir (d ++ [".hg"]) then
      (d, ".hg directory")
    else if fs.isFile (d ++ ["pyproject.toml"])
        && fs.tomlHasToolBlack (d ++ ["pyproject.toml"]) then
      (d, "pyproject.toml")
    else
      rootWalk fs rest d

/-- Embedding of `find_project_root` (files.py lines 46-79).  The stdin
sentinel substitution is string-level preprocessing and happens before path
resolution; sources arrive here already resolved (see `_cached_resolve`).
An empty source list defaults to the (resolved) current working directory. -/
def find_project_root (fs : FS) (cwd : FsPath) (srcs : List FsPath) :
    FsPath × String :=
  let path_srcs := if srcs.isEmpty then [cwd] else srcs
  let base := commonBase fs path_srcs
  rootWalk fs (base :: parents base) base

/-!
Version and specifier model.  `packaging.version.Version` and
`packaging.specifiers.Specifier/SpecifierSet` are external library
dependencies of files.py; we embed the fragment the code exercises:
release-only versions (dotted numerals; epoch, pre/post/dev and local
segments are outside the model, as `requires-python` metadata does not use
them) and the PEP 440 comparison operators with zero-padded release
comparison and wildcard / compatible-release prefix matching.
-/

/-- A parsed PEP 440 version restricted to its release segment
(`packaging.version.Version.release`). -/
structure PyVersion where
  release : List Nat
  deriving Repr, DecidableEq

/-- `Version.major`: the first release component, `0` when absent. -/
def PyVersion.major (v : PyVersion) : Nat := v.release.headD 0

/-- `Version.minor`: the second release component, `0` when absent. -/
def PyVersion.minor (v : PyVersion) : Nat := v.release.getD 1 0

/-- The PEP 440 comparison operators recognized by
`packaging.specifiers.Specifier`. -/
inductive SpecOp where
  | compatible   -- "~="
  | eq           -- "=="
  | ne           -- "!="
  | le           -- "<="
  | ge           -- ">="
  | lt           -- "<"
  | gt           -- ">"
  | arbitraryEq  -- "==="
  deriving Repr, DecidableEq

/-- One specifier clause: operator plus release components of its version;
`wildcard` records a trailing `.*` (so `"*" in str(s)` is `wildcard`). -/
structure Specifier where
  op : SpecOp
  version : List Nat
  wildcard : Bool
  deriving Repr, DecidableEq

/-- A specifier set as its list of clauses.  `packaging` stores a frozenset;
containment in the set is the conjunction over clauses, which is
order-independent, so a list is a faithful carrier. -/
abbrev SpecifierSet := List Specifier

/-- Zero-padded lexicographic comparison of release tuples: PEP 440 release
ordering (shorter releases are padded with zeros, so `3.8 == 3.8.0`).  When
one side is exhausted the remainder compares against zeros, so the result
is `eq` exactly when the remainder is all zeros. -/
def relCmp : List Nat → List Nat → Ordering
  | [], b => if b.all (fun x => x == 0) then .eq else .lt
  | a :: as1, [] => if (a :: as1).all (fun x => x == 0) then .eq else .gt
  | a :: as1, b :: bs =>
    match compare a b with
    | .eq => relCmp as1 bs
    | o => o

/-- PEP 440 prefix matching: the candidate release, zero-padded, agrees with
`spec` on the first `spec.length` components (used by wildcard `==`/`!=` and
the compatible-release operator). -/
def matchesUpTo : List Nat → List Nat → Bool
  | _, [] => true
  | c, p :: ps => (c.headD 0 == p) && matchesUpTo c.tail ps

/-- `Specifier.contains` for a plain (non-pre-release) candidate release,
per PEP 440 as implemented by `packaging.specifiers`. -/
def Specifier.containsVer (s : Specifier) (c : List Nat) : Bool :=
  match s.op with
  | .ge => relCmp c s.version != .lt
  | .gt => relCmp c s.version == .gt
  | .lt => relCmp c s.version == .lt
  | .le => relCmp c s.version != .gt
  | .eq => if s.wildcard then matchesUpTo c s.version
           else relCmp c s.version == .eq
  | .ne => if s.wildcard then !(matchesUpTo c s.version)
           else relCmp c s.version != .eq
  | .compatible =>
    (relCmp c s.version != .lt) && matchesUpTo c s.version.dropLast
  | .arbitraryEq => c == s.version

/-- Modelled from the spec: the `TargetVersion` enumeration lives in
`black/mode.py`, which is not under `src/`.  Per the spec it enumerates
"every known supported minor version" of Python 3 in ascending declaration
order, each member's `value` being the minor number; upstream this is
`PY33 = 3` through `PY313 = 13`.  A target version is represented by its
minor number. -/
def supportedMinors : List Nat := [3, 4, 5, 6, 7, 8, 9, 10, 11, 12, 13]

/-- Modelled from the spec: `TargetVersion(minor).name.lower()` from
`black/mode.py` (e.g. `PY38` gives `"py38"`, `PY310` gives `"py310"`). -/
def targetVersionName (minor : Nat) : String := "py3" ++ toString minor

/-- Embedding of `strip_specifier_set` (files.py lines 139-157) acting on
one clause.  `Specifier(f"{op}{major}.{minor}")` is modelled by building the
clause with release `[major, minor]` directly (parse of print). -/
def stripOne (s : Specifier) : Specifier :=
  if s.wildcard then s
  else if [SpecOp.compatible, SpecOp.eq, SpecOp.ge,
           SpecOp.arbitraryEq].contains s.op then
    { op := s.op
      version := [PyVersion.major ⟨s.version⟩, PyVersion.minor ⟨s.version⟩]
      wildcard := false }
  else if s.op == SpecOp.gt then
    if s.version.length > 2 then
      { op := SpecOp.ge
        version := [PyVersion.major ⟨s.version⟩, PyVersion.minor ⟨s.version⟩]
        wildcard := false }
    else s
  else s

/-- Embedding of `strip_specifier_set` (files.py lines 139-157).  The final
`SpecifierSet(",".join(str(s) for s in specifiers))` re-parses exactly the
clauses collected in order, so the function is the clause-wise map. -/
def strip_specifier_set (specifier_set : SpecifierSet) : SpecifierSet :=
  specifier_set.map stripOne

/-- Embedding of `parse_req_python_version` (files.py lines 115-123) on an
already-parsed version.  `version.release[0]` exists for every parsed
version (a PEP 440 release has at least one component); `release[1]` may
raise `IndexError` and `TargetVersion(value)` may raise `ValueError`, both
caught and mapped to `None`. -/
def parse_req_python_version (version : PyVersion) : Option (List Nat) :=
  if version.release.headD 0 != 3 then none
  else
    match version.release.get? 1 with
    | none => none
    | some m => if supportedMinors.contains m then some [m] else none

/-- Embedding of `parse_req_python_specifier` (files.py lines 126-136) on an
already-parsed specifier set.  `target_version_map` iterates `TargetVersion`
in ascending declaration order, so `filter` scans candidates `3.3 … 3.13`
ascending and keeps those contained in every clause. -/
def parse_req_python_specifier (requires_python : SpecifierSet) :
    Option (List Nat) :=
  let specifier_set := strip_specifier_set requires_python
  if specifier_set.isEmpty then none
  else
    let compatible_versions := supportedMinors.filter
      (fun m => specifier_set.all (fun s => s.containsVer [3, m]))
    if compatible_versions.isEmpty then none else some compatible_versions

/-!
String-level parsing.  `Version(str)` and `SpecifierSet(str)` raise
`InvalidVersion` / `InvalidSpecifier` on malformed input; we model parsing
as `Option` producers and the exceptions via `Except` wrappers below.  The
grammar covered is dotted numeral releases with an optional operator and an
optional trailing `.*` wildcard, which is the fragment `requires-python`
metadata uses.
-/

/-- Split a character list at every occurrence of `sep` (Python
`str.split(sep)` for a one-character separator). -/
def splitOnChar (sep : Char) : List Char → List (List Char)
  | [] => [[]]
  | c :: rest =>
    match splitOnChar sep rest with
    | [] => [[c]]
    | g :: gs => if c == sep then [] :: g :: gs else (c :: g) :: gs

/-- Strip whitespace from both ends (Python `str.strip`). -/
def trimChars (s : List Char) : List Char :=
  ((s.dropWhile Char.isWhitespace).reverse.dropWhile Char.isWhitespace).reverse

/-- Read a non-empty all-digit character run as a natural number
(`int(...)` on one dotted component). -/
def digitsToNat? (s : List Char) : Option Nat :=
  if s.isEmpty then none
  else if s.all Char.isDigit then
    some (s.foldl (fun n c => n * 10 + (c.toNat - 48)) 0)
  else none

/-- Parse a dotted numeral release such as `"3.10"` into its components. -/
def parseRelease (s : List Char) : Option (List Nat) :=
  (splitOnChar '.' s).mapM digitsToNat?

/-- Parse `packaging.version.Version` input (release fragment):
surrounding whitespace stripped, dotted numerals. -/
def parseVersionStr (s : String) : Option PyVersion :=
  (parseRelease (trimChars s.data)).map PyVersion.mk

/-- Operator spellings recognized by `Specifier`, longest first so that
`===` is matched before `==`. -/
def specOpTable : List (List Char × SpecOp) :=
  [("===".data, SpecOp.arbitraryEq), ("~=".data, SpecOp.compatible),
   ("==".data, SpecOp.eq), ("!=".data, SpecOp.ne), ("<=".data, SpecOp.le),
   (">=".data, SpecOp.ge), ("<".data, SpecOp.lt), (">".data, SpecOp.gt)]

/-- Parse one specifier clause, per `packaging.specifiers.Specifier`:
an operator, optional whitespace, then a version; a trailing `.*` wildcard
is admitted only for `==` and `!=`, and `~=` requires at least two release
components. -/
def parseSpecifierChars (s0 : List Char) : Option Specifier :=
  let s := trimChars s0
  match specOpTable.find? (fun p => p.1.isPrefixOf s) with
  | none => none
  | some (opStr, op) =>
    let rest := trimChars (s.drop opStr.length)
    if ['.', '*'].isSuffixOf rest then
      if op == SpecOp.eq || op == SpecOp.ne then
        match parseRelease (rest.take (rest.length - 2)) with
        | some rel => some ⟨op, rel, true⟩
        | none => none
      else none
    else
      match parseRelease rest with
      | some rel =>
        if op == SpecOp.compatible && rel.length < 2 then none
        else some ⟨op, rel, false⟩
      | none => none

/-- Parse `SpecifierSet` input: split on commas, strip whitespace, drop
empty pieces, parse every clause (any failing clause fails the set). -/
def parseSpecifierSetStr (s : String) : Option SpecifierSet :=
  (((splitOnChar ',' s.data).map trimChars).filter
    (fun t => !t.isEmpty)).mapM parseSpecifierChars

/-- The two `packaging` exception kinds caught by `infer_target_version`
(files.py lines 105 and 109). -/
inductive PkgError where
  | invalidVersion
  | invalidSpecifier
  deriving Repr, DecidableEq

instance {ε α : Type} [DecidableEq ε] [DecidableEq α] :
    DecidableEq (Except ε α) := fun x y =>
  match x, y with
  | .ok a, .ok b =>
    match decEq a b with
    | isTrue h => isTrue (h ▸ rfl)
    | isFalse h => isFalse fun hc => h (Except.ok.inj hc)
  | .error e, .error f =>
    match decEq e f with
    | isTrue h => isTrue (h ▸ rfl)
    | isFalse h => isFalse fun hc => h (Except.error.inj hc)
  | .ok _, .error _ => isFalse fun hc => Except.noConfusion hc
  | .error _, .ok _ => isFalse fun hc => Except.noConfusion hc

/-- String-level `parse_req_python_version`: `Version(requires_python)`
raises `InvalidVersion` on malformed input, then the parsed version is
interpreted (its own `IndexError`/`ValueError` are caught inside,
files.py lines 120-123). -/
def parse_req_python_versionE (requires_python : String) :
    Except PkgError (Option (List Nat)) :=
  match parseVersionStr requires_python with
  | none => .error .invalidVersion
  | some v => .ok (parse_req_python_version v)

/-- String-level `parse_req_python_specifier`:
`SpecifierSet(requires_python)` raises `InvalidSpecifier` on malformed
input.  (In Python a clause whose version `Version(s.version)` cannot parse
— only reachable via `===` — raises `InvalidVersion` inside
`strip_specifier_set`; the structured model rejects such a clause at parse
time, so both malformed shapes surface here as a parse failure.) -/
def parse_req_python_specifierE (requires_python : String) :
    Except PkgError (Option (List Nat)) :=
  match parseSpecifierSetStr requires_python with
  | none => .error .invalidSpecifier
  | some ss => .ok (parse_req_python_specifier ss)

/-- The parts of a parsed pyproject.toml document that files.py reads:
`project.requires-python` and the `[tool.black]` table. -/
structure PyProject (α : Type) where
  requires_python : Option String
  tool_black : Option (List (String × α))

/-- Embedding of `infer_target_version` (files.py lines 96-112): try the
exact-version parse, catching `InvalidVersion`; then the specifier parse,
catching `InvalidSpecifier` and `InvalidVersion`; any other exception would
propagate (modelled by re-raising unmatched errors). -/
def infer_target_version {α : Type} (pyproject_toml : PyProject α) :
    Except PkgError (Option (List Nat)) :=
  match pyproject_toml.requires_python with
  | none => .ok none
  | some requires_python =>
    match parse_req_python_versionE requires_python with
    | .ok r => .ok r
    | .error e =>
      if e == PkgError.invalidVersion then
        match parse_req_python_specifierE requires_python with
        | .ok r => .ok r
        | .error e2 =>
          if e2 == PkgError.invalidSpecifier
              || e2 == PkgError.invalidVersion then .ok none
          else .error e2
      else .error e

/-- TOML values as far as files.py distinguishes them: the inferred
`target_version` entry is a list of strings; everything else is opaque. -/
inductive TomlVal where
  | str : String → TomlVal
  | strList : List String → TomlVal
  | opaqueVal : Nat → TomlVal
  deriving Repr, DecidableEq

/-- Python `str.replace(pat, rep)` for a non-empty pattern: replace
non-overlapping occurrences left to right.  `fuel`, instantiated with the
string length, keeps the recursion structural. -/
def replaceFuel (pat rep : List Char) : Nat → List Char → List Char
  | 0, s => s
  | fuel + 1, s =>
    match s with
    | [] => []
    | c :: rest =>
      if pat.isPrefixOf (c :: rest) && !pat.isEmpty then
        rep ++ replaceFuel pat rep fuel (List.drop pat.length (c :: rest))
      else c :: replaceFuel pat rep fuel rest

/-- Python `str.replace` wrapped on `String`. -/
def strReplace (s pat rep : String) : String :=
  String.mk (replaceFuel pat.data rep.data s.data.length s.data)

/-- Key normalization from `parse_pyproject_toml` (files.py line 86):
`k.replace("--", "").replace("-", "_")`. -/
def normalizeKey (k : String) : String :=
  strReplace (strReplace k "--" "") "-" "_"

/-- Python dict insertion: when the key is already bound the value is
overwritten in place (the key keeps its original position), otherwise the
new binding is appended (insertion order). -/
def dictInsert {α : Type} (m : List (String × α)) (k : String) (v : α) :
    List (String × α) :=
  if (m.map Prod.fst).contains k then
    m.map (fun kv => if kv.1 == k then (k, v) else kv)
  else m ++ [(k, v)]

/-- The dict comprehension of files.py line 86: iterate the raw items in
insertion order and insert each value under its normalized key into a fresh
dict.  A Python dict is modelled as an association list with distinct keys;
raw keys whose normalized forms collide therefore collapse to one binding,
the last raw value winning. -/
def normalizeConfig {α : Type} (config : List (String × α)) :
    List (String × α) :=
  config.foldl (fun m kv => dictInsert m (normalizeKey kv.1) kv.2) []

/-- Embedding of `parse_pyproject_toml` (files.py lines 82-93): extract the
`[tool.black]` table (empty when absent), normalize keys, and when
`target_version` is absent insert the inferred one (when inference
succeeds); inference errors would propagate. -/
def parse_pyproject_toml (pyproject_toml : PyProject TomlVal) :
    Except PkgError (List (String × TomlVal)) :=
  let config := normalizeConfig (pyproject_toml.tool_black.getD [])
  if (config.map Prod.fst).contains "target_version" then .ok config
  else
    match infer_target_version pyproject_toml with
    | .error e => .error e
    | .ok none => .ok config
    | .ok (some tv) =>
      .ok (config ++
        [("target_version", TomlVal.strList (tv.map targetVersionName))])

/-!
Helper lemmas about the root locator.
-/

/-- A directory has a root marker iff the upward walk stops at it. -/
def hasRootMarker (fs : FS) (d : FsPath) : Bool :=
  fs.pathExists (d ++ [".git"]) || fs.isDir (d ++ [".hg"]) ||
    (fs.isFile (d ++ ["pyproject.toml"])
      && fs.tomlHasToolBlack (d ++ ["pyproject.toml"]))

/-- The chain of directories `find_project_root` visits, nearest first. -/
def visitChain (fs : FS) (cwd : FsPath) (srcs : List FsPath) : List FsPath :=
  let base := commonBase fs (if srcs.isEmpty then [cwd] else srcs)
  base :: parents base

theorem find_project_root_eq_walk (fs : FS) (cwd : FsPath)
    (srcs : List FsPath) :
    find_project_root fs cwd srcs =
      rootWalk fs (visitChain fs cwd srcs)
        (commonBase fs (if srcs.isEmpty then [cwd] else srcs)) := rfl

theorem isPref_of_mem_parents {d p : FsPath} (h : d ∈ parents p) : d <+: p := by
  simp only [parents, List.mem_reverse, List.mem_map, List.mem_range] at h
  obtain ⟨k, _, rfl⟩ := h
  exact List.take_prefix k p

theorem isPref_of_mem_srcParents {fs : FS} {d p : FsPath}
    (h : d ∈ srcParents fs p) : d <+: p := by
  simp only [srcParents, List.mem_append] at h
  rcases h with h | h
  · exact isPref_of_mem_parents h
  · split at h
    · simp only [List.mem_singleton] at h
      exact h ▸ List.prefix_refl p
    · simp at h

theorem commonBase_isPref {fs : FS} {paths : List FsPath} {q : FsPath}
    (hq : q ∈ paths) : commonBase fs paths <+: q := by
  match paths with
  | [] => simp at hq
  | p :: rest =>
    simp only [commonBase]
    cases hfind : (((if fs.isDir p then [p] else []) ++ parents p).find?
        (fun d => (p :: rest).all
          (fun r => (srcParents fs r).contains d))) with
    | none => exact List.nil_prefix
    | some d =>
      have hpred := List.find?_some hfind
      simp only [List.all_eq_true] at hpred
      have hc := hpred q hq
      simp only [List.contains, Option.getD_some] at hc ⊢
      exact isPref_of_mem_srcParents (List.elem_iff.mp hc)

theorem rootWalk_fst_mem (fs : FS) (dirs : List FsPath) (last : FsPath) :
    (rootWalk fs dirs last).1 ∈ dirs ∨ (rootWalk fs dirs last).1 = last := by
  induction dirs generalizing last with
  | nil => exact Or.inr rfl
  | cons d rest ih =>
    simp only [rootWalk]
    split
    · exact Or.inl (List.mem_cons_self d rest)
    · split
      · exact Or.inl (List.mem_cons_self d rest)
      · split
        · exact Or.inl (List.mem_cons_self d rest)
        · rcases ih d with h | h
          · exact Or.inl (List.mem_cons_of_mem d h)
          · rw [h]
            exact Or.inl (List.mem_cons_self d rest)

theorem rootWalk_no_marker {fs : FS} {dirs : List FsPath} {last : FsPath}
    (h : ∀ d ∈ dirs, hasRootMarker fs d = false) :
    rootWalk fs dirs last = (dirs.getLastD last, "file system root") := by
  induction dirs generalizing last with
  | nil => rfl
  | cons d rest ih =>
    have hd := h d (List.mem_cons_self d rest)
    simp only [hasRootMarker, Bool.or_eq_false_iff,
      Bool.and_eq_false_iff] at hd
    simp only [rootWalk, hd.1.1, hd.1.2, Bool.false_eq_true, if_false,
      List.getLastD_cons]
    rcases hd.2 with h2 | h2 <;>
      simp only [h2, Bool.false_and, Bool.and_false, Bool.false_eq_true,
        if_false] <;>
      exact ih (fun e he => h e (List.mem_cons_of_mem d he))

theorem parents_cons (a : String) (p : FsPath) :
    parents (a :: p) = (parents p).map (a :: ·) ++ [[]] := by
  simp only [parents, List.length_cons, List.range_succ_eq_map,
    List.map_cons, List.take_zero, List.map_map, List.reverse_cons]
  congr 1
  rw [← List.map_reverse, ← List.map_reverse, List.map_map]
  rfl

theorem chain_getLastD (p q : FsPath) : (p :: parents p).getLastD q = [] := by
  cases p with
  | nil => rfl
  | cons a p =>
    rw [List.getLastD_cons, parents_cons, List.getLastD_eq_getLast?,
      List.getLast?_concat]
    rfl

theorem rootWalk_vc_stop {fs : FS} {d : FsPath} :
    ∀ {dirs : List FsPath} {last : FsPath}, d ∈ dirs →
    (∀ e ∈ dirs.takeWhile (fun e => e != d), hasRootMarker fs e = false) →
    (fs.pathExists (d ++ [".git"]) = true ∨ fs.isDir (d ++ [".hg"]) = true) →
    rootWalk fs dirs last = (d, ".git directory") ∨
      rootWalk fs dirs last = (d, ".hg directory") := by
  intro dirs
  induction dirs with
  | nil => intro last h; simp at h
  | cons e rest ih =>
    intro last hmem hbefore hvc
    by_cases hed : e = d
    · subst hed
      simp only [rootWalk]
      rcases hvc with hg | hh
      · rw [hg]
        exact Or.inl rfl
      · cases hgit : fs.pathExists (e ++ [".git"]) with
        | true => exact Or.inl (by rw [if_pos rfl])
        | false =>
          rw [if_neg (by simp), hh, if_pos rfl]
          exact Or.inr rfl
    · have hbne : (e != d) = true := bne_iff_ne.mpr hed
      have hemark : hasRootMarker fs e = false := by
        apply hbefore
        rw [List.takeWhile_cons, if_pos hbne]
        exact List.mem_cons_self e _
      simp only [hasRootMarker, Bool.or_eq_false_iff] at hemark
      have hmem2 : d ∈ rest := by
        rcases List.mem_cons.mp hmem with h | h
        · exact absurd h.symm hed
        · exact h
      have hbefore2 : ∀ x ∈ rest.takeWhile (fun x => x != d),
          hasRootMarker fs x = false := by
        intro x hx
        apply hbefore
        rw [List.takeWhile_cons, if_pos hbne]
        exact List.mem_cons_of_mem e hx
      simp only [rootWalk, hemark.1.1, hemark.1.2, hemark.2,
        Bool.false_eq_true, if_false]
      exact ih hmem2 hbefore2 hvc

/-- Claim C1: for every non-empty list of resolved source paths sharing at
least one real common ancestor directory, `find_project_root` returns a
directory that is an ancestor of, or equal to, every resolved source path. -/
theorem claim_C1_root_is_ancestor_of_all (fs : FS) (cwd : FsPath)
    (srcs : List FsPath) (hne : srcs ≠ [])
    (hshared : ∃ a, fs.isDir a = true ∧ ∀ p ∈ srcs, a ∈ parents p) :
    ∀ p ∈ srcs, (find_project_root fs cwd srcs).1.isPrefixOf p = true := by
  intro p hp
  have hempty : srcs.isEmpty = false := by
    cases srcs with
    | nil => exact absurd rfl hne
    | cons a l => rfl
  rw [List.isPrefixOf_iff_prefix]
  have hwalk : find_project_root fs cwd srcs =
      rootWalk fs (commonBase fs srcs :: parents (commonBase fs srcs))
        (commonBase fs srcs) := by
    rw [find_project_root_eq_walk]
    simp only [visitChain, hempty, Bool.false_eq_true, if_false]
  have hbase : (find_project_root fs cwd srcs).1 <+: commonBase fs srcs := by
    rw [hwalk]
    rcases rootWalk_fst_mem fs
        (commonBase fs srcs :: parents (commonBase fs srcs))
        (commonBase fs srcs) with h | h
    · rcases List.mem_cons.mp h with h | h
      · rw [h]
      · exact isPref_of_mem_parents h
    · rw [h]
  exact hbase.trans (commonBase_isPref hp)

/-- Filesystem fixture for the C1 witness: `/u` is a directory, nothing
else exists. -/
def fsC1 : FS :=
  ⟨fun _ => false, fun p => p == ([] : FsPath) || p == ["u"],
   fun _ => false, fun _ => false⟩

theorem claim_C1_witness :
    ((([["u", "a.py"], ["u", "b.py"]] : List FsPath) ≠ []) ∧
      (∃ a, fsC1.isDir a = true ∧
        ∀ p ∈ ([["u", "a.py"], ["u", "b.py"]] : List FsPath),
          a ∈ parents p)) ∧
    ∀ p ∈ ([["u", "a.py"], ["u", "b.py"]] : List FsPath),
      (find_project_root fsC1 [] [["u", "a.py"], ["u", "b.py"]]).1.isPrefixOf
        p = true :=
  ⟨⟨by decide, ⟨["u"], by decide, by decide⟩⟩,
   claim_C1_root_is_ancestor_of_all fsC1 [] [["u", "a.py"], ["u", "b.py"]]
     (by decide) ⟨["u"], by decide, by decide⟩⟩

/-- Claim C2: `find_project_root` is total; an empty source list defaults to
the current working directory, and when no directory of the visited chain
(which always ends at the filesystem root) bears a root marker it returns
the filesystem root with reason `"file system root"`. -/
theorem claim_C2_total_with_root_fallback (fs : FS) (cwd : FsPath)
    (srcs : List FsPath) :
    find_project_root fs cwd [] = find_project_root fs cwd [cwd] ∧
    ((∀ d ∈ visitChain fs cwd srcs, hasRootMarker fs d = false) →
      find_project_root fs cwd srcs = ([], "file system root")) := by
  refine ⟨rfl, fun h => ?_⟩
  rw [find_project_root_eq_walk, rootWalk_no_marker h]
  have h2 : visitChain fs cwd srcs =
      commonBase fs (if srcs.isEmpty then [cwd] else srcs) ::
        parents (commonBase fs (if srcs.isEmpty then [cwd] else srcs)) := rfl
  rw [h2, chain_getLastD]

/-- Filesystem fixture for the C2 witness: a marker-free filesystem. -/
def fsC2 : FS := ⟨fun _ => false, fun _ => false, fun _ => false, fun _ => false⟩

theorem claim_C2_witness :
    (∀ d ∈ visitChain fsC2 ["u"] [["u", "x.py"]],
      hasRootMarker fsC2 d = false) ∧
    find_project_root fsC2 ["u"] [["u", "x.py"]] = ([], "file system root") :=
  ⟨by decide,
   (claim_C2_total_with_root_fallback fsC2 ["u"] [["u", "x.py"]]).2
     (by decide)⟩

/-- Claim C3: version-control markers are checked before the structured-file
marker.  If the walk reaches a directory `d` (no earlier directory on the
visited chain bears a marker) and `d` has both a version-control marker and
a pyproject.toml with a `[tool.black]` section, `find_project_root` returns
`d` with the version-control reason, never with reason `"pyproject.toml"`. -/
theorem claim_C3_vc_marker_beats_pyproject (fs : FS) (cwd : FsPath)
    (srcs : List FsPath) (d : FsPath)
    (hmem : d ∈ visitChain fs cwd srcs)
    (hbefore : ∀ e ∈ (visitChain fs cwd srcs).takeWhile (fun e => e != d),
      hasRootMarker fs e = false)
    (hvc : fs.pathExists (d ++ [".git"]) = true ∨
      fs.isDir (d ++ [".hg"]) = true)
    (_hpy : fs.isFile (d ++ ["pyproject.toml"]) = true ∧
      fs.tomlHasToolBlack (d ++ ["pyproject.toml"]) = true) :
    (find_project_root fs cwd srcs = (d, ".git directory") ∨
      find_project_root fs cwd srcs = (d, ".hg directory")) ∧
    (find_project_root fs cwd srcs).2 ≠ "pyproject.toml" := by
  rw [find_project_root_eq_walk]
  have h := @rootWalk_vc_stop fs d (visitChain fs cwd srcs)
    (commonBase fs (if srcs.isEmpty then [cwd] else srcs)) hmem hbefore hvc
  refine ⟨h, ?_⟩
  rcases h with h | h <;> rw [h] <;> simp

/-- Filesystem fixture for the C3 witness: `/a` is a directory bearing both
a `.git` entry and a pyproject.toml with a `[tool.black]` section. -/
def fsC3 : FS :=
  ⟨fun p => p == ["a", ".git"],
   fun p => p == ([] : FsPath) || p == ["a"],
   fun p => p == ["a", "pyproject.toml"],
   fun p => p == ["a", "pyproject.toml"]⟩

theorem claim_C3_witness :
    ((["a"] : FsPath) ∈ visitChain fsC3 [] [["a", "f.py"]] ∧
      (∀ e ∈ (visitChain fsC3 [] [["a", "f.py"]]).takeWhile
        (fun e => e != (["a"] : FsPath)), hasRootMarker fsC3 e = false) ∧
      (fsC3.pathExists (["a"] ++ [".git"]) = true ∨
        fsC3.isDir (["a"] ++ [".hg"]) = true) ∧
      fsC3.isFile (["a"] ++ ["pyproject.toml"]) = true ∧
      fsC3.tomlHasToolBlack (["a"] ++ ["pyproject.toml"]) = true) ∧
    (find_project_root fsC3 [] [["a", "f.py"]] = (["a"], ".git directory") ∨
      find_project_root fsC3 [] [["a", "f.py"]] = (["a"], ".hg directory")) ∧
    (find_project_root fsC3 [] [["a", "f.py"]]).2 ≠ "pyproject.toml" :=
  ⟨⟨by decide, by decide, by decide, by decide, by decide⟩,
   claim_C3_vc_marker_beats_pyproject fsC3 [] [["a", "f.py"]] ["a"]
     (by decide) (by decide) (by decide) ⟨by decide, by decide⟩⟩

/-- Claim C4: a directory on the walk holding a pyproject.toml that lacks a
`[tool.black]` section, and no version-control marker, does not stop the
walk: the loop steps on to the directory's ancestors.  Stated for one step
of the walk and, lifted, for `find_project_root` when that directory is the
common base where the walk starts. -/
theorem claim_C4_sectionless_pyproject_keeps_walking :
    (∀ (fs : FS) (d : FsPath) (rest : List FsPath) (last : FsPath),
      fs.pathExists (d ++ [".git"]) = false →
      fs.isDir (d ++ [".hg"]) = false →
      fs.isFile (d ++ ["pyproject.toml"]) = true →
      fs.tomlHasToolBlack (d ++ ["pyproject.toml"]) = false →
      rootWalk fs (d :: rest) last = rootWalk fs rest d) ∧
    (∀ (fs : FS) (cwd : FsPath) (srcs : List FsPath) (base : FsPath),
      base = commonBase fs (if srcs.isEmpty then [cwd] else srcs) →
      fs.pathExists (base ++ [".git"]) = false →
      fs.isDir (base ++ [".hg"]) = false →
      fs.isFile (base ++ ["pyproject.toml"]) = true →
      fs.tomlHasToolBlack (base ++ ["pyproject.toml"]) = false →
      find_project_root fs cwd srcs = rootWalk fs (parents base) base) := by
  have hstep : ∀ (fs : FS) (d : FsPath) (rest : List FsPath) (last : FsPath),
      fs.pathExists (d ++ [".git"]) = false →
      fs.isDir (d ++ [".hg"]) = false →
      fs.isFile (d ++ ["pyproject.toml"]) = true →
      fs.tomlHasToolBlack (d ++ ["pyproject.toml"]) = false →
      rootWalk fs (d :: rest) last = rootWalk fs rest d := by
    intro fs d rest last h1 h2 h3 h4
    simp only [rootWalk, h1, h2, h3, h4, Bool.and_false, Bool.false_eq_true,
      if_false]
  refine ⟨hstep, ?_⟩
  intro fs cwd srcs base hbase h1 h2 h3 h4
  rw [find_project_root_eq_walk]
  have hchain : visitChain fs cwd srcs = base :: parents base := by
    rw [hbase]; rfl
  rw [hchain, ← hbase, hstep fs base (parents base) base h1 h2 h3 h4]

/-- Filesystem fixture for the C4 witness: `/a` holds a pyproject.toml with
no `[tool.black]` section and no version-control marker anywhere. -/
def fsC4 : FS :=
  ⟨fun _ => false,
   fun p => p == ([] : FsPath) || p == ["a"],
   fun p => p == ["a", "pyproject.toml"],
   fun _ => false⟩

theorem claim_C4_witness :
    ((["a"] : FsPath) = commonBase fsC4
        (if ([["a", "f.py"]] : List FsPath).isEmpty then [([] : FsPath)]
         else [["a", "f.py"]]) ∧
      fsC4.pathExists (["a"] ++ [".git"]) = false ∧
      fsC4.isDir (["a"] ++ [".hg"]) = false ∧
      fsC4.isFile (["a"] ++ ["pyproject.toml"]) = true ∧
      fsC4.tomlHasToolBlack (["a"] ++ ["pyproject.toml"]) = false) ∧
    find_project_root fsC4 [] [["a", "f.py"]] =
      rootWalk fsC4 (parents ["a"]) ["a"] :=
  ⟨⟨by decide, by decide, by decide, by decide, by decide⟩,
   claim_C4_sectionless_pyproject_keeps_walking.2 fsC4 [] [["a", "f.py"]]
     ["a"] (by decide) (by decide) (by decide) (by decide) (by decide)⟩

/-- One clause of `strip_specifier_set` is idempotent: a stripped clause is
left unchanged by stripping again. -/
theorem stripOne_idem (s : Specifier) : stripOne (stripOne s) = stripOne s := by
  rcases s with ⟨op, ver, wc⟩
  cases wc
  · cases op
    case gt =>
      by_cases h : ver.length > 2
      · simp [stripOne, h, PyVersion.major, PyVersion.minor, List.getD]
      · simp [stripOne, h]
    all_goals rfl
  · rfl

/-- A clause whose version already has exactly the major.minor two
components (or that carries a wildcard) is a fixed point of stripping. -/
theorem stripOne_fixed (s : Specifier)
    (h : s.wildcard = true ∨ s.version.length = 2) : stripOne s = s := by
  rcases s with ⟨op, ver, wc⟩
  rcases h with h | h
  · cases wc
    · exact absurd h (by simp)
    · rfl
  · obtain ⟨a, b, rfl⟩ := List.length_eq_two.mp h
    cases wc
    · cases op <;> rfl
    · rfl

/-- Claim C5: for the input string `">=3.7,<3.10"`, specifier inference
yields exactly the target versions 3.7, 3.8 and 3.9, and in general the
result lists compatible minor versions in ascending order. -/
theorem claim_C5_specifier_inference_ascending :
    parse_req_python_specifierE ">=3.7,<3.10" = Except.ok (some [7, 8, 9]) ∧
    ∀ (ss : SpecifierSet) (l : List Nat),
      parse_req_python_specifier ss = some l → l.Pairwise (· < ·) := by
  constructor
  · decide
  · intro ss l h
    simp only [parse_req_python_specifier] at h
    split at h
    · exact Option.noConfusion h
    · split at h
      · exact Option.noConfusion h
      · cases h
        exact (by decide : supportedMinors.Pairwise (· < ·)).filter _

theorem claim_C5_witness :
    parse_req_python_specifier
      [⟨SpecOp.ge, [3, 7], false⟩, ⟨SpecOp.lt, [3, 10], false⟩] =
        some [7, 8, 9] ∧
    List.Pairwise (· < ·) [7, 8, 9] :=
  ⟨by decide,
   claim_C5_specifier_inference_ascending.2
     [⟨SpecOp.ge, [3, 7], false⟩, ⟨SpecOp.lt, [3, 10], false⟩] [7, 8, 9]
     (by decide)⟩

/-- Claim C6 counterexample: on input `"~=3.8.5"` the inference yields all
supported minors from 3.8 upward, not exactly the single target 3.8 the
claim states. -/
theorem claim_C6_counterexample :
    parse_req_python_specifierE "~=3.8.5" =
      Except.ok (some [8, 9, 10, 11, 12, 13]) ∧
    parse_req_python_specifierE "~=3.8.5" ≠ Except.ok (some [8]) := by
  constructor <;> decide

/-- Claim C6 (amended): for the input string `"~=3.8.5"`, normalization
rewrites the clause to `~=3.8`, and specifier inference then yields every
supported target version from 3.8 upward (pep 440 `~=3.8` means
`>= 3.8, == 3.*`), i.e. 3.8 through 3.13 — not only 3.8. -/
theorem claim_C6_amended_compatible_release_range :
    (parseSpecifierSetStr "~=3.8.5").map strip_specifier_set =
      some [⟨SpecOp.compatible, [3, 8], false⟩] ∧
    parse_req_python_specifierE "~=3.8.5" =
      Except.ok (some [8, 9, 10, 11, 12, 13]) := by
  constructor <;> decide

/-- Claim C7: `strip_specifier_set` is idempotent — stripping its own
output returns an equal specifier set; in particular a specifier set whose
clauses all carry only major.minor versions (or are wildcard clauses, which
strip never touches) is returned unchanged. -/
theorem claim_C7_strip_specifier_set_idempotent :
    (∀ ss : SpecifierSet,
      strip_specifier_set (strip_specifier_set ss) =
        strip_specifier_set ss) ∧
    ∀ ss : SpecifierSet,
      (∀ s ∈ ss, s.wildcard = true ∨ s.version.length = 2) →
      strip_specifier_set ss = ss := by
  constructor
  · intro ss
    simp only [strip_specifier_set, List.map_map]
    exact List.map_congr_left fun s _ => stripOne_idem s
  · intro ss h
    simp only [strip_specifier_set]
    calc ss.map stripOne
        = ss.map id := List.map_congr_left fun s hs => stripOne_fixed s (h s hs)
      _ = ss := List.map_id ss

theorem claim_C7_witness :
    (∀ s ∈ ([⟨SpecOp.ge, [3, 8], false⟩] : SpecifierSet),
      s.wildcard = true ∨ s.version.length = 2) ∧
    strip_specifier_set [⟨SpecOp.ge, [3, 8], false⟩] =
      [⟨SpecOp.ge, [3, 8], false⟩] :=
  ⟨by decide,
   claim_C7_strip_specifier_set_idempotent.2 [⟨SpecOp.ge, [3, 8], false⟩]
     (by decide)⟩

/-- Claim C8: exact-version inference yields exactly target 3.9 for input
`"3.9"`, and for every valid concrete version whose major component is not
3 (such as `"2.7"`) it yields no inference, without raising. -/
theorem claim_C8_exact_version_inference :
    parse_req_python_versionE "3.9" = Except.ok (some [9]) ∧
    parse_req_python_versionE "2.7" = Except.ok none ∧
    ∀ v : PyVersion, v.release ≠ [] → v.release.headD 0 ≠ 3 →
      parse_req_python_version v = none := by
  refine ⟨by decide, by decide, ?_⟩
  intro v _ h3
  simp only [parse_req_python_version]
  rw [if_pos (bne_iff_ne.mpr h3)]

theorem claim_C8_witness :
    ((PyVersion.mk [2, 7]).release ≠ [] ∧
      (PyVersion.mk [2, 7]).release.headD 0 ≠ 3) ∧
    parse_req_python_version (PyVersion.mk [2, 7]) = none :=
  ⟨⟨by decide, by decide⟩,
   claim_C8_exact_version_inference.2.2 (PyVersion.mk [2, 7]) (by decide)
     (by decide)⟩

/-- Claim C9: `infer_target_version` never propagates a malformed-version
(`InvalidVersion`) or malformed-specifier (`InvalidSpecifier`) parse error:
both failure kinds are caught internally and the function returns no
inference instead of raising. -/
theorem claim_C9_infer_target_version_never_raises :
    (∀ (α : Type) (doc : PyProject α),
      (infer_target_version doc).isOk = true) ∧
    ∀ (α : Type) (doc : PyProject α) (s : String),
      doc.requires_python = some s →
      parse_req_python_versionE s = Except.error PkgError.invalidVersion →
      parse_req_python_specifierE s = Except.error PkgError.invalidSpecifier →
      infer_target_version doc = Except.ok none := by
  constructor
  · intro α doc
    cases hrp : doc.requires_python with
    | none => simp [infer_target_version, hrp, Except.isOk, Except.toBool]
    | some s =>
      cases hv : parseVersionStr s with
      | some v =>
        simp [infer_target_version, hrp, parse_req_python_versionE, hv,
          Except.isOk, Except.toBool]
      | none =>
        cases hs : parseSpecifierSetStr s with
        | some ss =>
          simp [infer_target_version, hrp, parse_req_python_versionE, hv,
            parse_req_python_specifierE, hs, Except.isOk, Except.toBool]
        | none =>
          simp [infer_target_version, hrp, parse_req_python_versionE, hv,
            parse_req_python_specifierE, hs, Except.isOk, Except.toBool]
  · intro α doc s hrp h1 h2
    simp [infer_target_version, hrp, h1, h2]

theorem claim_C9_witness :
    ((PyProject.mk (some "x") none : PyProject Nat).requires_python =
        some "x" ∧
      parse_req_python_versionE "x" =
        Except.error PkgError.invalidVersion ∧
      parse_req_python_specifierE "x" =
        Except.error PkgError.invalidSpecifier) ∧
    infer_target_version (PyProject.mk (some "x") none : PyProject Nat) =
      Except.ok none :=
  ⟨⟨rfl, by decide, by decide⟩,
   claim_C9_infer_target_version_never_raises.2 Nat
     (PyProject.mk (some "x") none) "x" rfl (by decide) (by decide)⟩

/-- Inserting into a dict yields only bindings that were already present or
the inserted one. -/
theorem dictInsert_mem {α : Type} {m : List (String × α)} {k : String}
    {v : α} {p : String × α} (h : p ∈ dictInsert m k v) :
    p ∈ m ∨ p = (k, v) := by
  unfold dictInsert at h
  split at h
  · obtain ⟨q, hq, hmap⟩ := List.mem_map.mp h
    by_cases hk : q.1 = k
    · right
      rw [← hmap]
      simp [hk]
    · left
      rw [← hmap]
      simpa [hk] using hq
  · rcases List.mem_append.mp h with h | h
    · exact Or.inl h
    · simp only [List.mem_singleton] at h
      exact Or.inr h

/-- The inserted key is bound after a dict insertion. -/
theorem dictInsert_key_self {α : Type} (m : List (String × α)) (k : String)
    (v : α) : k ∈ (dictInsert m k v).map Prod.fst := by
  unfold dictInsert
  split
  · next hc =>
    obtain ⟨q, hq, hqk⟩ := List.mem_map.mp (List.elem_iff.mp hc)
    refine List.mem_map.mpr ⟨(k, v), List.mem_map.mpr ⟨q, hq, ?_⟩, rfl⟩
    simp [hqk]
  · simp

/-- Dict insertion never drops a previously bound key. -/
theorem dictInsert_keys_mono {α : Type} {m : List (String × α)}
    {k0 : String} (h : k0 ∈ m.map Prod.fst) (k : String) (v : α) :
    k0 ∈ (dictInsert m k v).map Prod.fst := by
  unfold dictInsert
  split
  · obtain ⟨q, hq, hqk⟩ := List.mem_map.mp h
    by_cases hk : q.1 = k
    · refine List.mem_map.mpr
        ⟨(k, v), List.mem_map.mpr ⟨q, hq, by simp [hk]⟩, ?_⟩
      rw [← hqk, hk]
    · exact List.mem_map.mpr ⟨q, List.mem_map.mpr ⟨q, hq, by simp [hk]⟩, hqk⟩
  · rw [List.map_append]
    exact List.mem_append_left _ h

/-- Every binding produced by the normalization fold comes from the initial
accumulator or carries, verbatim, the value of a raw item whose key
normalizes to its key. -/
theorem normalizeFold_mem_source {α : Type} (l : List (String × α)) :
    ∀ (m : List (String × α)) (p : String × α),
      p ∈ l.foldl (fun m kv => dictInsert m (normalizeKey kv.1) kv.2) m →
      p ∈ m ∨ ∃ q ∈ l, normalizeKey q.1 = p.1 ∧ q.2 = p.2 := by
  induction l with
  | nil => exact fun m p h => Or.inl h
  | cons kv rest ih =>
    intro m p h
    rw [List.foldl_cons] at h
    rcases ih _ p h with h2 | ⟨q, hq, hqe⟩
    · rcases dictInsert_mem h2 with h3 | h3
      · exact Or.inl h3
      · exact Or.inr ⟨kv, List.mem_cons_self _ _, by rw [h3], by rw [h3]⟩
    · exact Or.inr ⟨q, List.mem_cons_of_mem _ hq, hqe⟩

/-- Keys of the accumulator survive the whole normalization fold. -/
theorem normalizeFold_keys_mono {α : Type} (l : List (String × α)) :
    ∀ (m : List (String × α)) (k0 : String), k0 ∈ m.map Prod.fst →
      k0 ∈ (l.foldl (fun m kv => dictInsert m (normalizeKey kv.1) kv.2)
        m).map Prod.fst := by
  induction l with
  | nil => exact fun m k0 h => h
  | cons kv rest ih =>
    intro m k0 h
    rw [List.foldl_cons]
    exact ih _ k0 (dictInsert_keys_mono h _ _)

/-- Every raw item's normalized key is bound after the normalization fold. -/
theorem normalizeFold_key_complete {α : Type} (l : List (String × α)) :
    ∀ (m : List (String × α)) (q : String × α), q ∈ l →
      normalizeKey q.1 ∈
        (l.foldl (fun m kv => dictInsert m (normalizeKey kv.1) kv.2)
          m).map Prod.fst := by
  induction l with
  | nil => intro m q h; simp at h
  | cons kv rest ih =>
    intro m q hq
    rw [List.foldl_cons]
    rcases List.mem_cons.mp hq with h | h
    · rw [h]
      exact normalizeFold_keys_mono rest _ _ (dictInsert_key_self m _ _)
    · exact ih _ q h

/-- When the normalized keys of the remaining items are pairwise distinct
and disjoint from the accumulator's keys, the normalization fold is a plain
append of the renamed items: no overwrite fires. -/
theorem normalizeFold_nodup_append {α : Type} (l : List (String × α)) :
    ∀ (m : List (String × α)),
      (l.map (fun kv => normalizeKey kv.1)).Nodup →
      (∀ k0 ∈ m.map Prod.fst, k0 ∉ l.map (fun kv => normalizeKey kv.1)) →
      l.foldl (fun m kv => dictInsert m (normalizeKey kv.1) kv.2) m =
        m ++ l.map (fun kv => (normalizeKey kv.1, kv.2)) := by
  induction l with
  | nil => intro m _ _; simp
  | cons kv rest ih =>
    intro m hnd hdis
    simp only [List.map_cons, List.nodup_cons] at hnd
    rw [List.foldl_cons]
    have hk : normalizeKey kv.1 ∉ m.map Prod.fst := by
      intro hmem
      exact hdis _ hmem (by simp)
    have hstep : dictInsert m (normalizeKey kv.1) kv.2 =
        m ++ [(normalizeKey kv.1, kv.2)] := by
      unfold dictInsert
      rw [if_neg]
      intro hc
      exact hk (List.elem_iff.mp hc)
    rw [hstep, ih (m ++ [(normalizeKey kv.1, kv.2)]) hnd.2]
    · simp
    · intro k0 hk0
      rw [List.map_append] at hk0
      rcases List.mem_append.mp hk0 with h | h
      · intro hr
        exact hdis k0 h (by simp [hr])
      · simp only [List.map_cons, List.map_nil, List.mem_singleton] at h
        rw [h]
        exact hnd.1

/-- Claim C10 counterexample: the key `"a--b"` is normalized to `"ab"` —
the `"--"` pair is removed, not replaced hyphen-by-hyphen with underscores
— so "every internal hyphen is replaced with an underscore" is false; and
the distinct raw keys `"line-length"` and `"line_length"` both normalize to
`"line_length"` and collapse to a single binding holding the later value,
so the normalized key set is not a pure renaming of the raw key set. -/
theorem claim_C10_counterexample :
    (normalizeConfig [("a--b", TomlVal.str "v")] =
        [("ab", TomlVal.str "v")] ∧
      normalizeKey "a--b" ≠ "a__b") ∧
    normalizeConfig
        [("line-length", TomlVal.str "v1"), ("line_length", TomlVal.str "v2")] =
      [("line_length", TomlVal.str "v2")] := by
  refine ⟨⟨?_, ?_⟩, ?_⟩ <;> decide

/-- Claim C10 (amended): every key in the `[tool.black]` section first has
each `"--"` substring removed and then every remaining hyphen replaced
with an underscore (`"line-length"` becomes `"line_length"`).  Every
binding of the normalized mapping carries its value verbatim from a raw
item whose key normalizes to its key, and every raw key's normalized form
is bound; when the normalized keys are pairwise distinct (no collision)
normalization is a pure renaming — the raw mapping with each key
normalized, values unchanged in order.  Distinct raw keys whose normalized
forms collide collapse to one binding with the last raw value (dict
overwrite). -/
theorem claim_C10_amended_key_normalization :
    (∀ (α : Type) (config : List (String × α)),
      (∀ p ∈ normalizeConfig config,
        ∃ q ∈ config, normalizeKey q.1 = p.1 ∧ q.2 = p.2) ∧
      ∀ q ∈ config,
        normalizeKey q.1 ∈ (normalizeConfig config).map Prod.fst) ∧
    (∀ (α : Type) (config : List (String × α)),
      (config.map (fun kv => normalizeKey kv.1)).Nodup →
      normalizeConfig config =
        config.map (fun kv => (normalizeKey kv.1, kv.2))) ∧
    normalizeKey "line-length" = "line_length" := by
  refine ⟨fun α config => ⟨?_, ?_⟩, fun α config hnd => ?_, by decide⟩
  · intro p hp
    rcases normalizeFold_mem_source config [] p hp with h | h
    · simp at h
    · exact h
  · intro q hq
    exact normalizeFold_key_complete config [] q hq
  · rw [normalizeConfig, normalizeFold_nodup_append config [] hnd (by simp)]
    simp

theorem claim_C10_witness :
    ((([("line-length", TomlVal.str "v")] : List (String × TomlVal)).map
        (fun kv => normalizeKey kv.1)).Nodup) ∧
    normalizeConfig [("line-length", TomlVal.str "v")] =
      ([("line-length", TomlVal.str "v")] : List (String × TomlVal)).map
        (fun kv => (normalizeKey kv.1, kv.2)) :=
  ⟨by decide,
   claim_C10_amended_key_normalization.2.1 TomlVal
     [("line-length", TomlVal.str "v")] (by decide)⟩
